import Mathlib

/-!
Verification development for the `tox` repository.

Part A models the Earley parser engine (the repository's `earley` module:
`types.rs`, `grammar.rs`, `tree1.rs`, `trees.rs`, the lexer and the chart
engine).  Those source files are not present in the checkout — only their
test file `src/earley/parser_test.rs` is — so, per the specification,
every definition in Part A carries a doc comment starting with
`Modelled from the spec:` and follows the wording of `spec.md` §3–§4.

Part B embeds the shunting-yard parser (`src/parser.rs`) and the RPN
evaluator (`src/rpneval.rs`), whose sources are present, directly from
the Rust code.
-/

namespace Earley

/-- Modelled from the spec: `Symbol` is "a named nonterminal, or a named
terminal paired with a recognition predicate over lexeme text" (§2, §3).
The spec makes terminal equality identity-based: "Two terminals are equal
only by identity of their predicate value (same predicate instance), never
by name or behavior alone" (§3).  Predicate identity is represented here by
a token `predId`: each construction of a boxed predicate in the source
yields a fresh identity, so distinct call sites receive distinct tokens
even when the predicate text coincides. -/
inductive Symbol where
  | nonterm (name : String)
  | terminal (name : String) (predId : Nat) (pred : String → Bool)

/-- Modelled from the spec: the name under which a symbol is registered. -/
def Symbol.name : Symbol → String
  | .nonterm n => n
  | .terminal n _ _ => n

/-- Modelled from the spec: symbol equality — nonterminals by name,
terminals by identity of the predicate instance (§3). -/
def Symbol.beq : Symbol → Symbol → Bool
  | .nonterm a, .nonterm b => a == b
  | .terminal a i _, .terminal b j _ => a == b && i == j
  | _, _ => false

instance : BEq Symbol := ⟨Symbol.beq⟩

/-- Modelled from the spec: `Rule` is "(head: Symbol, body: ordered
sequence of Symbol)"; the body may be empty (epsilon rule) (§3). -/
structure Rule where
  head : Symbol
  body : List Symbol

/-- Modelled from the spec: rule equality "is by structural value
(head + body)" (§3). -/
def Rule.beq (a b : Rule) : Bool :=
  a.head == b.head && a.body == b.body

instance : BEq Rule := ⟨Rule.beq⟩

/-- Modelled from the spec: `Item` is "a dotted rule — rule, dot position,
and the chart column where the rule's recognition began (origin)" plus an
informational `end` coordinate (§3).  `ending` is the spec's `end`. -/
structure Item where
  rule : Rule
  dot : Nat
  origin : Nat
  ending : Nat

/-- Modelled from the spec: item "equality is structural over
(rule, dot, origin); the `end` coordinate ... does not participate in
dedup identity" (§3). -/
def Item.beq (a b : Item) : Bool :=
  a.rule == b.rule && a.dot == b.dot && a.origin == b.origin

instance : BEq Item := ⟨Item.beq⟩

/-- Modelled from the spec: the body symbol right after the dot, when the
dot is short of completion. -/
def Item.nextSym (it : Item) : Option Symbol :=
  it.rule.body.get? it.dot

/-- Modelled from the spec: "`dot == body.len()` marks completion" (§3). -/
def Item.isComplete (it : Item) : Bool :=
  it.dot == it.rule.body.length

/-- Modelled from the spec: "advancing the dot produces a new Item" (§3);
the advanced copy sits at chart column `col`. -/
def Item.advanceTo (it : Item) (col : Nat) : Item :=
  { it with dot := it.dot + 1, ending := col }

/-- Modelled from the spec: a `StateSet` is "a deduplicated,
insertion-ordered collection of Items for one token position" (§2). -/
abbrev StateSet := List Item

/-- Modelled from the spec: "push is idempotent (structural-equality
dedup), preserving first-insertion order" (§3). -/
def ssPush (ss : StateSet) (it : Item) : StateSet :=
  if ss.any (fun j => j == it) then ss else ss ++ [it]

/-- Modelled from the spec: `Grammar` "owns the full symbol table, the
full rule set indexed by head-symbol name ..., a designated start symbol,
and a precomputed nullability map" (§3). -/
structure Grammar where
  rules : List Rule
  start : String
  nullables : List String

/-- Modelled from the spec: `rules(name) -> sequence of Rule`, the rule
set filtered by head-symbol name (§3). -/
def Grammar.rulesFor (g : Grammar) (name : String) : List Rule :=
  g.rules.filter (fun r => r.head.name == name)

/-- Modelled from the spec: `is_nullable(name) -> bool`, reading the
precomputed nullability map (§3). -/
def Grammar.is_nullable (g : Grammar) (name : String) : Bool :=
  g.nullables.contains name

/-- Modelled from the spec: a body symbol counts toward nullability only
when it is a nonterminal already marked nullable; terminals are never
nullable (§3). -/
def symInSet (s : List String) : Symbol → Bool
  | .nonterm n => s.contains n
  | .terminal _ _ _ => false

/-- Modelled from the spec: the contribution of one rule to a round of
the nullability fixed point — its head becomes nullable when every body
symbol already is (§3). -/
def nullFold (acc : List String) (r : Rule) : List String :=
  if acc.contains r.head.name then acc
  else if r.body.all (symInSet acc) then acc ++ [r.head.name]
  else acc

/-- Modelled from the spec: one round of the nullability fixed point —
"a nonterminal is nullable if it has an empty-body rule, or a rule whose
every body symbol is itself nullable" (§3). -/
def nullStep (rules : List Rule) (s : List String) : List String :=
  rules.foldl nullFold s

/-- Modelled from the spec: "iterate until no new nonterminal becomes
nullable" (§3); the iteration count is bounded by the rule count, so the
explicit bound below always reaches the fixed point. -/
def nullIter (rules : List Rule) : Nat → List String → List String
  | 0, s => s
  | f + 1, s =>
    if (nullStep rules s).length == s.length then s
    else nullIter rules f (nullStep rules s)

/-- The head names of a rule list. -/
def headNames (rules : List Rule) : List String :=
  rules.map (fun r => r.head.name)

/-- Modelled from the spec: the nullability map "computed once at build
time via fixed-point iteration over the rule graph" (§3). -/
def nullableFix (rules : List Rule) : List String :=
  nullIter rules (rules.length + 1) []

/-- Modelled from the spec: `GrammarBuilder` "accumulates symbols/rules by
name and resolves name references into a Grammar" (§2, §4.1). -/
structure GrammarBuilder where
  symbols : List Symbol
  rules : List Rule

/-- Modelled from the spec: `GrammarBuilder::new()` (§6). -/
def GrammarBuilder.new : GrammarBuilder := ⟨[], []⟩

/-- Modelled from the spec: `symbol(Symbol) -> self` registers a symbol
under its name (§4.1). -/
def GrammarBuilder.symbol (gb : GrammarBuilder) (s : Symbol) : GrammarBuilder :=
  { gb with symbols := gb.symbols ++ [s] }

/-- Modelled from the spec: name resolution against previously registered
symbols (§4.1). -/
def GrammarBuilder.findSym (gb : GrammarBuilder) (name : String) : Option Symbol :=
  gb.symbols.find? (fun s => s.name == name)

/-- Modelled from the spec: `rule(head_name, body_names) -> self` appends
a rule, resolving each name; "referencing an unregistered name is a caller
error" fatal in the source (§4.1) — here such a call leaves the builder
unchanged, since no claim exercises it. -/
def GrammarBuilder.rule (gb : GrammarBuilder) (head : String) (body : List String) : GrammarBuilder :=
  match gb.findSym head, body.mapM gb.findSym with
  | some h, some bs => { gb with rules := gb.rules ++ [Rule.mk h bs] }
  | _, _ => gb

/-- Modelled from the spec: `into_grammar(start_name) -> Grammar`
"finalizes: computes nullability, indexes rules by head" (§4.1). -/
def GrammarBuilder.into_grammar (gb : GrammarBuilder) (start : String) : Grammar :=
  { rules := gb.rules, start := start, nullables := nullableFix gb.rules }

/-- `DerivesEmpty rules x`: the name `x` can derive the empty sequence of
terminals, directly or transitively — the standard inductive reading of
"X has a derivation to the empty sequence of terminals" (spec §8): some
rule headed `x` has a body all of whose symbols are nonterminals that
again derive the empty sequence. -/
inductive DerivesEmpty (rules : List Rule) : String → Prop where
  | viaRule (r : Rule) (x : String) (hr : r ∈ rules) (hx : r.head.name = x)
      (hnt : ∀ s ∈ r.body, ∃ n, s = Symbol.nonterm n)
      (hbody : ∀ s ∈ r.body, ∀ n, s = Symbol.nonterm n → DerivesEmpty rules n) :
      DerivesEmpty rules x

/-- Modelled from the spec: the lexer's "designated whitespace/separator
subset" (§4.3); the repository's scanner uses space, newline, carriage
return and tab as its whitespace class (`src/scanner.rs`). -/
def isWs (c : Char) : Bool :=
  c == ' ' || c == '\n' || c == '\r' || c == '\t'

/-- Modelled from the spec: the tokenization rule of §4.3 over a character
list — whitespace characters "are consumed and emitted as nothing",
operator-set characters "are each emitted as their own one-character
lexeme", and "any maximal run of characters belonging to neither set is
emitted as one lexeme".  `cur` is the pending run, `acc` the emitted
lexemes in order. -/
def lexChars (ops : List Char) : List Char → List Char → List String → List String
  | [], cur, acc => acc ++ (if cur.isEmpty then [] else [String.mk cur])
  | c :: cs, cur, acc =>
    if isWs c then
      lexChars ops cs [] (acc ++ (if cur.isEmpty then [] else [String.mk cur]))
    else if ops.contains c then
      lexChars ops cs []
        ((acc ++ (if cur.isEmpty then [] else [String.mk cur])) ++ [String.mk [c]])
    else
      lexChars ops cs (cur ++ [c]) acc

/-- Modelled from the spec: `Lexer::from_str(text, operators)` — the
finite sequence of lexeme strings produced from a full string plus the
operator-character set (§4.3, §6). -/
def lexerFromStr (text operators : String) : List String :=
  lexChars operators.toList text.toList [] []

/-- Modelled from the spec: the *complete* step — for a completed item,
"scan back to StateSet[origin] and advance every item there whose next
body symbol equals the completed head" (§4.2).  When the origin is the
current column the current column snapshot is scanned. -/
def completions (chart : List StateSet) (col : StateSet) (colIdx : Nat) (it : Item) : List Item :=
  let src := if it.origin == colIdx then col else chart.getD it.origin []
  (src.filter (fun w =>
      match w.nextSym with
      | some s => s == it.rule.head
      | none => false)).map (fun w => w.advanceTo colIdx)

/-- Modelled from the spec: the contribution of one item to the
saturation of its column — *predict* and *nullable-complete* for an item
awaiting a nonterminal, and *complete* for a fully dotted item (§4.2). -/
def stepItem (g : Grammar) (chart : List StateSet) (col : StateSet) (colIdx : Nat)
    (acc : StateSet) (it : Item) : StateSet :=
  match it.nextSym with
  | some (Symbol.nonterm n) =>
    let acc := (g.rulesFor n).foldl (fun a r => ssPush a ⟨r, 0, colIdx, colIdx⟩) acc
    if g.is_nullable n then ssPush acc (it.advanceTo colIdx) else acc
  | some (Symbol.terminal _ _ _) => acc
  | none => (completions chart col colIdx it).foldl ssPush acc

/-- Modelled from the spec: one saturation pass over a column snapshot. -/
def saturatePass (g : Grammar) (chart : List StateSet) (colIdx : Nat) (col : StateSet) : StateSet :=
  col.foldl (stepItem g chart col colIdx) col

/-- Modelled from the spec: "saturate ... until no new items are added"
(§4.2); `ssPush` only ever appends, so an unchanged length means the pass
reached the fixed point. -/
def saturateN (g : Grammar) (chart : List StateSet) (colIdx : Nat) : Nat → StateSet → StateSet
  | 0, col => col
  | f + 1, col =>
    let col' := saturatePass g chart colIdx col
    if col'.length == col.length then col else saturateN g chart colIdx f col'

/-- Modelled from the spec: an upper bound on the number of distinct items
a column can hold — (rule, dot) pairs times possible origins — so the
bounded iteration below always reaches the saturation fixed point. -/
def colFuel (g : Grammar) (colIdx : Nat) : Nat :=
  (g.rules.foldl (fun a r => a + r.body.length + 1) 0) * (colIdx + 1) + 1

/-- Modelled from the spec: saturate one chart column with *complete*,
*predict* and *nullable-complete* until fixed point (§4.2 steps 1–2). -/
def saturate (g : Grammar) (chart : List StateSet) (colIdx : Nat) (col : StateSet) : StateSet :=
  saturateN g chart colIdx (colFuel g colIdx) col

/-- Modelled from the spec: the *scan* step — "for every item in
StateSet[i] whose next body symbol is a terminal whose predicate accepts
the current lexeme text, add the dot-advanced item to StateSet[i+1]
(origin unchanged)" (§4.2). -/
def scanCol (col : StateSet) (lexeme : String) (newIdx : Nat) : StateSet :=
  col.foldl
    (fun acc it =>
      match it.nextSym with
      | some (Symbol.terminal _ _ p) =>
        if p lexeme then ssPush acc (it.advanceTo newIdx) else acc
      | _ => acc)
    []

/-- Modelled from the spec: the column loop of §4.2 step 2 — scan each
remaining lexeme, record an empty column and stop early if the scan
produced zero items, otherwise saturate the new column and continue. -/
def chartGo (g : Grammar) : List String → Nat → StateSet → List StateSet → List StateSet
  | [], _, _, acc => acc
  | lx :: rest, idx, lastCol, acc =>
    let nc := scanCol lastCol lx (idx + 1)
    if nc.isEmpty then acc ++ [[]]
    else
      let nc := saturate g acc (idx + 1) nc
      chartGo g rest (idx + 1) nc (acc ++ [nc])

/-- Modelled from the spec: chart construction — column 0 "seeds
predictions: for the start symbol, add every rule with head = start,
dot = 0, origin = 0", saturates, then runs the scan loop (§4.2). -/
def buildChart (g : Grammar) (toks : List String) : List StateSet :=
  let init := (g.rulesFor g.start).foldl (fun a r => ssPush a ⟨r, 0, 0, 0⟩) []
  let col0 := saturate g [] 0 init
  if col0.isEmpty then [col0] else chartGo g toks 0 col0 [col0]

/-- Modelled from the spec: the parser's two failure kinds,
`BadInput` and `PartialParse` (§4.2, §7). -/
inductive ParseError where
  | BadInput
  | PartialParse
deriving BEq, DecidableEq

/-- Modelled from the spec: `ParseState{states: ordered sequence of
StateSet}` (§6); the matched lexemes are carried along because the tree
builder resolves terminal leaves "directly to the matched lexeme at the
corresponding column transition" (§4.4). -/
structure ParseState where
  states : List StateSet
  lexemes : List String

/-- Modelled from the spec: "a completed item with head = start symbol,
origin = 0" — residing in column `j` it spans `0..j` (§4.2 step 3). -/
def isFullStart (g : Grammar) (it : Item) : Bool :=
  it.isComplete && it.rule.head == Symbol.nonterm g.start && it.origin == 0

/-- Modelled from the spec: whether a column holds a completed
start-symbol item spanning from column 0 (§4.2 step 3). -/
def colHasFullStart (g : Grammar) (col : StateSet) : Bool :=
  col.any (isFullStart g)

/-- Modelled from the spec: "search columns 0..d−1 for the largest column
j with a completed start-symbol item spanning 0..j" (§4.2 step 3); the
empty column is the chart's last by construction. -/
def largestDoneCol (g : Grammar) (chart : List StateSet) : Option Nat :=
  ((List.range (chart.length - 1)).reverse).find?
    (fun j => colHasFullStart g (chart.getD j []))

/-- Modelled from the spec: `parse` — chart construction followed by the
three-way classification of §4.2 step 3: success when all lexemes were
consumed and the final column holds a full-span completed start item;
otherwise `PartialParse` exactly when an early empty column exists and
some earlier column holds a complete derivation of the prefix ending
there; otherwise `BadInput`. -/
def parse (g : Grammar) (toks : List String) : Except ParseError ParseState :=
  let chart := buildChart g toks
  if chart.length == toks.length + 1 && colHasFullStart g (chart.getLastD []) then
    .ok ⟨chart, toks⟩
  else if chart.any List.isEmpty then
    if (largestDoneCol g chart).isSome then .error .PartialParse
    else .error .BadInput
  else .error .BadInput

/-- Modelled from the spec: a derivation tree — an inner node labelled by
the head nonterminal with one child per body symbol, and a leaf holding
the matched lexeme (§4.4). -/
inductive Tree where
  | node (name : String) (children : List Tree)
  | leaf (lexeme : String)
deriving BEq

mutual

/-- Modelled from the spec: all derivation trees of one completed item
residing at column `e` — the children are produced by walking the rule
body from its last symbol backward (§4.4); `f` is recursion fuel, spent
only on nonterminal sub-item choices. -/
def treesOfItem (chart : List StateSet) (toks : List String) :
    Nat → Item → Nat → List Tree
  | 0, _, _ => []
  | f + 1, it, e =>
    (walksRev chart toks f it.rule.body.reverse it.origin e).map
      (fun cs => Tree.node it.rule.head.name cs.reverse)

/-- Modelled from the spec: the combinatorial walk of §4.4 over a
*reversed* rule body spanning `o..e` — for the last body symbol, a
terminal resolves directly to the matched lexeme at the column transition
`e-1 → e`, and a nonterminal explores "every completed sub-item (not just
the first)" with head equal to that symbol in column `e`, in the column's
insertion order; the children lists come out last-symbol-first. -/
def walksRev (chart : List StateSet) (toks : List String) :
    Nat → List Symbol → Nat → Nat → List (List Tree)
  | 0, _, _, _ => []
  | _ + 1, [], o, e => if o == e then [[]] else []
  | f + 1, Symbol.terminal _ _ _ :: rest, o, e =>
    match e with
    | 0 => []
    | e' + 1 =>
      (walksRev chart toks f rest o e').map
        (fun cs => Tree.leaf (toks.getD e' "") :: cs)
  | f + 1, Symbol.nonterm n :: rest, o, e =>
    let cands := (chart.getD e []).filter
      (fun c => c.isComplete && c.rule.head == Symbol.nonterm n)
    cands.flatMap (fun c =>
      (walksRev chart toks f rest o c.origin).flatMap (fun cs =>
        (treesOfItem chart toks f c e).map (fun t => t :: cs)))

end

mutual

/-- Modelled from the spec: the single-tree walk of §4.4 — identical to
`treesOfItem` except that at each choice point it commits to the first
completed sub-item, in insertion order, for which the rest of the walk
succeeds ("choosing, on ties, the first such item in the column's
insertion order"). -/
def treeOfItem (chart : List StateSet) (toks : List String) :
    Nat → Item → Nat → Option Tree
  | 0, _, _ => none
  | f + 1, it, e =>
    (walkRev chart toks f it.rule.body.reverse it.origin e).map
      (fun cs => Tree.node it.rule.head.name cs.reverse)

/-- Modelled from the spec: deterministic counterpart of `walksRev`,
taking the first workable choice at every nonterminal (§4.4). -/
def walkRev (chart : List StateSet) (toks : List String) :
    Nat → List Symbol → Nat → Nat → Option (List Tree)
  | 0, _, _, _ => none
  | _ + 1, [], o, e => if o == e then some [] else none
  | f + 1, Symbol.terminal _ _ _ :: rest, o, e =>
    match e with
    | 0 => none
    | e' + 1 =>
      (walkRev chart toks f rest o e').map
        (fun cs => Tree.leaf (toks.getD e' "") :: cs)
  | f + 1, Symbol.nonterm n :: rest, o, e =>
    let cands := (chart.getD e []).filter
      (fun c => c.isComplete && c.rule.head == Symbol.nonterm n)
    cands.findSome? (fun c =>
      (walkRev chart toks f rest o c.origin).bind (fun cs =>
        (treeOfItem chart toks f c e).map (fun t => t :: cs)))

end

/-- Modelled from the spec: the full-span completed start items of a
successful chart, in the final column's insertion order (§4.4). -/
def startItems (g : Grammar) (ps : ParseState) : List Item :=
  (ps.states.getLastD []).filter (isFullStart g)

/-- Modelled from the spec: a fuel bound ample for every derivation walk
the claims exercise; self-referential completed items exhaust it and
contribute nothing. -/
def treeFuel (ps : ParseState) : Nat :=
  (ps.states.foldl (fun a c => a + c.length) 1 + 1) * (ps.states.length + 2)

/-- Modelled from the spec: `build_tree(&Grammar, &ParseState) -> Tree`,
one derivation, walking backward from the full-span completed start item
(§4.4, §6). -/
def build_tree (g : Grammar) (ps : ParseState) : Option Tree :=
  (startItems g ps).findSome?
    (fun it => treeOfItem ps.states ps.lexemes (treeFuel ps) it (ps.states.length - 1))

/-- Modelled from the spec: `build_trees(&Grammar, &ParseState)`, the
sequence of all derivations, "a Cartesian expansion per ambiguous node"
(§4.4, §6). -/
def build_trees (g : Grammar) (ps : ParseState) : List Tree :=
  (startItems g ps).flatMap
    (fun it => treesOfItem ps.states ps.lexemes (treeFuel ps) it (ps.states.length - 1))

mutual

/-- The leaf lexemes of a tree, read left to right. -/
def leavesOf : Tree → List String
  | .leaf lx => [lx]
  | .node _ cs => leavesList cs

/-- The leaf lexemes of a list of trees, read left to right. -/
def leavesList : List Tree → List String
  | [] => []
  | t :: ts => leavesOf t ++ leavesList ts

end

/-- Whether `pre` is an initial segment of `l` (character-list version,
kept structural so the kernel can evaluate it). -/
def startsWithL (l pre : List Char) : Bool :=
  match l, pre with
  | _, [] => true
  | [], _ :: _ => false
  | c :: cs, p :: ps => c == p && startsWithL cs ps

/-- Substring search over character lists, structural in the haystack. -/
def hasSubL (hay needle : List Char) : Bool :=
  startsWithL hay needle ||
    match hay with
    | [] => false
    | _ :: rest => hasSubL rest needle

/-- Modelled from the spec: substring containment of `needle` in `hay`,
the semantics of Rust's `str::contains(&str)` used by the test grammars'
predicates. -/
def strContainsSub (hay needle : String) : Bool :=
  if needle.isEmpty then true else hasSubL hay.toList needle.toList

/-- The arithmetic grammar of `grammar_math()` in
`src/earley/parser_test.rs` (Sum/Mul/Pow/Num with Number, [+-], [*/],
[^], parens), registered through the modelled `GrammarBuilder`.  Each
terminal construction site receives a fresh predicate-identity token. -/
def mathGB : GrammarBuilder :=
  ((((((((((GrammarBuilder.new.symbol
    (Symbol.nonterm "Sum")).symbol
    (Symbol.nonterm "Mul")).symbol
    (Symbol.nonterm "Pow")).symbol
    (Symbol.nonterm "Num")).symbol
    (Symbol.terminal "Number" 0 (fun n => n.toList.all (fun c => "1234567890".toList.contains c)))).symbol
    (Symbol.terminal "[+-]" 1 (fun n => n.length == 1 && strContainsSub "+-" n))).symbol
    (Symbol.terminal "[*/]" 2 (fun n => n.length == 1 && strContainsSub "*/" n))).symbol
    (Symbol.terminal "[^]" 3 (fun n => n == "^"))).symbol
    (Symbol.terminal "(" 4 (fun n => n == "("))).symbol
    (Symbol.terminal ")" 5 (fun n => n == ")"))).rule
    "Sum" ["Sum", "[+-]", "Mul"] |>.rule
    "Sum" ["Mul"] |>.rule
    "Mul" ["Mul", "[*/]", "Pow"] |>.rule
    "Mul" ["Pow"] |>.rule
    "Pow" ["Num", "[^]", "Pow"] |>.rule
    "Pow" ["Num"] |>.rule
    "Num" ["(", "Sum", ")"] |>.rule
    "Num" ["Number"]

/-- The arithmetic grammar finalized with start symbol `Sum`. -/
def mathGrammar : Grammar := mathGB.into_grammar "Sum"

/-- The grammar of `test_partialparse`: `Start -> "+" "+"`. -/
def plusGrammar : Grammar :=
  (((GrammarBuilder.new.symbol (Symbol.nonterm "Start")).symbol
    (Symbol.terminal "+" 0 (fun n => n == "+"))).rule
    "Start" ["+", "+"]).into_grammar "Start"

/-- The grammar of `grammar_ambiguous`: `S -> S S | b`. -/
def ambGrammar : Grammar :=
  ((((GrammarBuilder.new.symbol (Symbol.nonterm "S")).symbol
    (Symbol.terminal "b" 0 (fun n => n == "b"))).rule
    "S" ["S", "S"]).rule
    "S" ["b"]).into_grammar "S"

/-- The grammar of `grammar_empty` and `symbol_nullable`:
`A -> ε | B`, `B -> A`. -/
def emptyGrammar : Grammar :=
  (((((GrammarBuilder.new.symbol (Symbol.nonterm "A")).symbol
    (Symbol.nonterm "B")).rule
    "A" []).rule
    "A" ["B"]).rule
    "B" ["A"]).into_grammar "A"

/-- A grammar of `chained_terminals`: `E -> <variant>`, `X -> ε`, where
the variant mixes the terminal `+` with the nullable nonterminal `X`. -/
def chainedGrammar (variant : List String) : Grammar :=
  (((((GrammarBuilder.new.symbol (Symbol.nonterm "E")).symbol
    (Symbol.nonterm "X")).symbol
    (Symbol.terminal "+" 0 (fun n => n == "+"))).rule
    "E" variant).rule
    "X" []).into_grammar "E"

end Earley

namespace Shunting

/-- `MathToken` from the crate's tokenizer, reconstructed from its uses in
`src/parser.rs` and `src/rpneval.rs` (the tokenizer source file is not in
the checkout; the constructors and payloads are fully determined by the
match arms of the two files that are). -/
inductive MathToken where
  | Number (n : Float)
  | Variable (v : String)
  | BOp (op : String)
  | UOp (op : String)
  | Function (name : String) (arity : Nat)
  | OParen
  | CParen
  | Comma
  | Unknown (lexeme : String)
deriving BEq

/-- `Assoc` from `src/parser.rs`. -/
inductive Assoc where
  | Left
  | Right
  | None
deriving BEq, DecidableEq

/-- `precedence` from `src/parser.rs` — the match arms in source order;
unlisted tokens get `(99, Assoc::None)`. -/
def precedence : MathToken → Nat × Assoc
  | .OParen => (1, .Left)
  | .BOp o =>
    if o == "+" then (2, .Left)
    else if o == "-" then (2, .Left)
    else if o == "*" then (3, .Left)
    else if o == "/" then (3, .Left)
    else if o == "%" then (3, .Left)
    else if o == "^" then (5, .Right)
    else (99, .None)
  | .UOp o =>
    if o == "-" then (5, .Right)
    else if o == "!" then (6, .Left)
    else (99, .None)
  | .Function _ _ => (7, .Left)
  | _ => (99, .None)

/-- Whether a token is the opening parenthesis. -/
def isOParen : MathToken → Bool
  | .OParen => true
  | _ => false

/-- `RPNExpr` from `src/parser.rs`: the output token sequence in reverse
Polish order. -/
structure RPNExpr where
  toks : List MathToken
deriving BEq

/-- The shunting-yard loop state of `ShuntingParser::parse`: the output
queue `out`, the operator stack `stack` (head = top of stack) and the
function-arity stack `arity` (head = top). -/
structure SYState where
  out : List MathToken
  stack : List MathToken
  arity : List Nat

/-- The operator-popping loop of `ShuntingParser::parse` for a `UOp`/`BOp`
token: pop while the stack top has greater precedence, or equal precedence
and the incoming token is left-associative; equal precedence with no
associativity is the `"No Associativity"` error. -/
def popOps (precRhs : Nat) (assocRhs : Assoc) :
    List MathToken → List MathToken → Except String (List MathToken × List MathToken)
  | [], out => .ok (out, [])
  | top :: rest, out =>
    let precLhs := (precedence top).1
    if precLhs > precRhs then popOps precRhs assocRhs rest (out ++ [top])
    else if precLhs < precRhs then .ok (out, top :: rest)
    else
      match assocRhs with
      | .Left => popOps precRhs assocRhs rest (out ++ [top])
      | .None => .error "No Associativity"
      | .Right => .ok (out, top :: rest)

/-- One iteration of the token loop of `ShuntingParser::parse`
(`src/parser.rs` lines 50–98), as a state transformer.  The
`Comma`/`CParen` arm pops the stack down to the nearest `OParen`
(`"Missing Opening Paren"` if none remains); `CParen` additionally peels
the `OParen` and, when a `Function` sits beneath it, moves the function to
the output with the arity count popped from the arity stack (the
`unwrap` on that pop is a panic in the source and unreachable; it is
rendered here as a distinct error). -/
def shuntStep (st : SYState) (token : MathToken) : Except String SYState :=
  match token with
  | .Number _ => .ok { st with out := st.out ++ [token] }
  | .Variable _ => .ok { st with out := st.out ++ [token] }
  | .OParen => .ok { st with stack := token :: st.stack }
  | .Function _ _ => .ok { st with stack := token :: st.stack, arity := 1 :: st.arity }
  | .Comma =>
    let popped := st.stack.takeWhile (fun t => !(t == MathToken.OParen))
    let rest := st.stack.dropWhile (fun t => !(t == MathToken.OParen))
    match rest with
    | [] => .error "Missing Opening Paren"
    | _ :: _ =>
      .ok { st with out := st.out ++ popped, stack := rest,
                    arity := match st.arity with
                             | a :: others => (a + 1) :: others
                             | [] => [] }
  | .CParen =>
    let popped := st.stack.takeWhile (fun t => !(t == MathToken.OParen))
    let rest := st.stack.dropWhile (fun t => !(t == MathToken.OParen))
    match rest with
    | [] => .error "Missing Opening Paren"
    | _ :: afterParen =>
      match afterParen with
      | MathToken.Function f _ :: rest2 =>
        match st.arity with
        | a :: others =>
          .ok { st with out := st.out ++ popped ++ [MathToken.Function f a],
                        stack := rest2, arity := others }
        | [] => .error "arity stack underflow"
      | _ => .ok { st with out := st.out ++ popped, stack := afterParen }
  | .UOp _ =>
    match popOps (precedence token).1 (precedence token).2 st.stack st.out with
    | .ok (out', stack') => .ok { st with out := out', stack := token :: stack' }
    | .error e => .error e
  | .BOp _ =>
    match popOps (precedence token).1 (precedence token).2 st.stack st.out with
    | .ok (out', stack') => .ok { st with out := out', stack := token :: stack' }
    | .error e => .error e
  | .Unknown lexeme => .error ("Bad token: " ++ lexeme)

/-- The drain loop after the token loop of `ShuntingParser::parse`
(`src/parser.rs` lines 99–104): pop the whole stack into the output, but
an `OParen` still on the stack is the `"Missing Closing Paren"` error. -/
def finishSY : List MathToken → List MathToken → Except String (List MathToken)
  | [], out => .ok out
  | t :: rest, out =>
    if isOParen t then .error "Missing Closing Paren"
    else finishSY rest (out ++ [t])

/-- `ShuntingParser::parse` over a token sequence (the lexer is an
arbitrary `Iterator<Item = MathToken>` in the source). -/
def parseSY (toks : List MathToken) : Except String RPNExpr := do
  let st ← toks.foldlM shuntStep ⟨[], [], []⟩
  let out ← finishSY st.stack st.out
  pure ⟨out⟩

/-- The number of opening parens on a stack. -/
def countO (l : List MathToken) : Nat := l.countP isOParen

/-- Running parenthesis check: `d` open parens so far; a closing paren
must find a positive depth, and the end must return to depth zero. -/
def parenAux : Nat → List MathToken → Bool
  | d, [] => d == 0
  | d, .OParen :: r => parenAux (d + 1) r
  | d, .CParen :: r => decide (0 < d) && parenAux (d - 1) r
  | d, _ :: r => parenAux d r

/-- Every parenthesis of the token sequence is matched. -/
def parenBalanced (ts : List MathToken) : Bool := parenAux 0 ts

/-- The f64 primitives of `src/rpneval.rs` that Lean's kernel-evaluable
fragment does not provide: `%` on floats, `f64::max`/`f64::min` (with
their NaN conventions), and the impure `rand::random` factor (modelled as
a function of the argument it multiplies).  The claims proved below are
control-flow properties and hold for every interpretation of these. -/
structure F64Ops where
  fmod : Float → Float → Float
  fmax : Float → Float → Float
  fmin : Float → Float → Float
  frandom : Float → Float

/-- Rendering of a token for the `"Bad Token: {:?}"` messages of
`MathContext::eval`; only `OParen`, `CParen`, `Comma` and `Unknown` can
reach that arm. -/
def MathToken.debugStr : MathToken → String
  | .Number _ => "Number"
  | .Variable v => "Variable(" ++ v ++ ")"
  | .BOp o => "BOp(" ++ o ++ ")"
  | .UOp o => "UOp(" ++ o ++ ")"
  | .Function f a => "Function(" ++ f ++ ", " ++ toString a ++ ")"
  | .OParen => "OParen"
  | .CParen => "CParen"
  | .Comma => "Comma"
  | .Unknown lx => "Unknown(" ++ lx ++ ")"

/-- `MathContext::eval_fn` from `src/rpneval.rs` (lines 85–105): fixed
functions with arity checks via the `nargs!` macro; an arity mismatch is
the `"Wrong number of arguments"` error and an unlisted name the
`"Unknown function"` error.  Note the source has no `"tgamma"` arm. -/
def evalFn (ops : F64Ops) (fname : String) (args : List Float) : Except String Float :=
  match fname with
  | "sin" =>
    match args with
    | [a] => .ok (Float.sin a)
    | _ => .error "Wrong number of arguments"
  | "cos" =>
    match args with
    | [a] => .ok (Float.cos a)
    | _ => .error "Wrong number of arguments"
  | "atan2" =>
    match args with
    | [a, b] => .ok (Float.atan2 a b)
    | _ => .error "Wrong number of arguments"
  | "max" =>
    match args with
    | a :: rest => .ok (rest.foldl ops.fmax a)
    | [] => .error "Wrong number of arguments"
  | "min" =>
    match args with
    | a :: rest => .ok (rest.foldl ops.fmin a)
    | [] => .error "Wrong number of arguments"
  | "abs" =>
    match args with
    | [a] => .ok (Float.abs a)
    | _ => .error "Wrong number of arguments"
  | "rand" =>
    match args with
    | [a] => .ok (ops.frandom a)
    | _ => .error "Wrong number of arguments"
  | "nMPr" =>
    match args with
    | [a, b] => .ok (Float.pow a b)
    | _ => .error "Wrong number of arguments"
  | _ => .error ("Unknown function: " ++ fname)

/-- `MathContext` from `src/rpneval.rs`: a variable environment. -/
structure MathContext where
  vars : List (String × Float)

/-- `MathContext::new`, seeding `pi` and `e`. -/
def MathContext.new : MathContext :=
  ⟨[("pi", 3.141592653589793), ("e", 2.718281828459045)]⟩

/-- `MathContext::setvar`. -/
def MathContext.setvar (cx : MathContext) (var : String) (val : Float) : MathContext :=
  ⟨(var, val) :: cx.vars⟩

/-- One iteration of the token loop of `MathContext::eval`
(`src/rpneval.rs` lines 35–79) over the operand stack (head = top of
stack).  Every pop is guarded: an underflow on a binary operator, unary
operator, or function with too few operands is the
`"Wrong number of arguments"` error; a variable missing from the context
is the `"Unknown Variable"` error; `splitting off a function's arguments
reverses the top `arity` operands back into push order. -/
def evalStep (ops : F64Ops) (cx : MathContext) (operands : List Float) :
    MathToken → Except String (List Float)
  | .Number num => .ok (num :: operands)
  | .Variable var =>
    match cx.vars.lookup var with
    | some value => .ok (value :: operands)
    | none => .error ("Unknown Variable: " ++ var)
  | .BOp op =>
    match operands with
    | r :: l :: rest =>
      if op == "+" then .ok ((l + r) :: rest)
      else if op == "-" then .ok ((l - r) :: rest)
      else if op == "*" then .ok ((l * r) :: rest)
      else if op == "/" then .ok ((l / r) :: rest)
      else if op == "%" then .ok (ops.fmod l r :: rest)
      else if op == "^" then .ok (Float.pow l r :: rest)
      else .error ("Bad Token: " ++ op)
    | _ => .error "Wrong number of arguments"
  | .UOp op =>
    match operands with
    | o :: rest =>
      if op == "-" then .ok ((-o) :: rest)
      else if op == "!" then
        match evalFn ops "tgamma" [o + 1.0] with
        | .ok v => .ok (v :: rest)
        | .error e => .error e
      else .error ("Bad Token: " ++ op)
    | [] => .error "Wrong number of arguments"
  | .Function fname arity =>
    if arity > operands.length then .error "Wrong number of arguments"
    else
      match evalFn ops fname ((operands.take arity).reverse) with
      | .ok v => .ok (v :: operands.drop arity)
      | .error e => .error e
  | t => .error ("Bad Token: " ++ t.debugStr)

/-- `MathContext::eval` (`src/rpneval.rs` lines 32–83): fold the RPN
tokens over the operand stack, then pop the result (empty stack is the
`"Wrong number of arguments"` error; leftover operands are ignored, as in
the source). -/
def eval (ops : F64Ops) (cx : MathContext) (rpn : RPNExpr) : Except String Float := do
  let operands ← rpn.toks.foldlM (evalStep ops cx) []
  match operands with
  | v :: _ => pure v
  | [] => .error "Wrong number of arguments"

/-- A trivial interpretation of the abstracted f64 primitives, used to
instantiate universally quantified theorems at concrete inputs. -/
def opsTriv : F64Ops :=
  ⟨fun _ _ => 0.0, fun _ _ => 0.0, fun _ _ => 0.0, fun _ => 0.0⟩

end Shunting

namespace Earley

/-- The lexemes of `test_badparse`: `Lexer::from_str("1+", "+*")`. -/
def toksBad : List String := lexerFromStr "1+" "+*"

/-- The lexemes of `test_partialparse`: `Lexer::from_str("+++", "+")`. -/
def toksPlus : List String := lexerFromStr "+++" "+"

/-- The lexemes of `grammar_ambiguous`: `Lexer::from_str("b b b", " ")`. -/
def toksB : List String := lexerFromStr "b b b" " "

/-- The parse state of `grammar_ambiguous` over three `b` lexemes. -/
def psAmb : ParseState := ⟨buildChart ambGrammar toksB, toksB⟩

/-- The lexemes of `math_grammar_test`: `"1+(2*3-4)"` lexed with the
operator set holding plus, star, minus, slash and the two parens. -/
def toksMath : List String := lexerFromStr "1+(2*3-4)" "+*-/()"

/-- The parse state of `math_grammar_test`. -/
def psMath : ParseState := ⟨buildChart mathGrammar toksMath, toksMath⟩

/-- The parse state of `grammar_empty` over the empty input. -/
def psEmpty : ParseState := ⟨buildChart emptyGrammar [], []⟩

/-- The parse state of one `chained_terminals` variant over its input. -/
def psChained (variant toks : List String) : ParseState :=
  ⟨buildChart (chainedGrammar variant) toks, toks⟩

/-- A lexeme the §4.3 tokenization rule may emit: either a one-character
lexeme whose character belongs to the operator set (and is not
whitespace), or a nonempty run of characters belonging to neither the
operator set nor the whitespace subset. -/
def goodLexeme (ops : List Char) (lx : String) : Prop :=
  (∃ c, lx = String.mk [c] ∧ ops.contains c = true ∧ isWs c = false) ∨
  (lx ≠ "" ∧ ∀ c ∈ lx.toList, ops.contains c = false ∧ isWs c = false)

/-- The left-associated derivation of `S -> S S | b` over `b b b`:
`(b b) b`. -/
def c5TreeLeft : Tree :=
  Tree.node "S"
    [Tree.node "S" [Tree.node "S" [Tree.leaf "b"], Tree.node "S" [Tree.leaf "b"]],
     Tree.node "S" [Tree.leaf "b"]]

/-- The right-associated derivation of `S -> S S | b` over `b b b`:
`b (b b)`. -/
def c5TreeRight : Tree :=
  Tree.node "S"
    [Tree.node "S" [Tree.leaf "b"],
     Tree.node "S" [Tree.node "S" [Tree.leaf "b"], Tree.node "S" [Tree.leaf "b"]]]

/-- The number of children of a tree's first child — a discriminator for
concrete trees. -/
def firstChildArity : Tree → Nat
  | Tree.node _ (Tree.node _ cs :: _) => cs.length
  | _ => 0

/-- The lexemes of columns `o` (inclusive) to `e` (exclusive): the slice
of the token sequence a chart item spanning `o..e` accounts for. -/
def sliceT (toks : List String) (o e : Nat) : List String :=
  (toks.drop o).take (e - o)

end Earley

namespace Earley

/- ------------------------------------------------------------------ -/
/- Classification lemmas (claims C1, C2).                             -/
/- ------------------------------------------------------------------ -/

/-- A list's `getLastD` is a member whenever the list is nonempty. -/
theorem mem_getLastD_of_ne_nil {α : Type} (l : List α) (d : α) (h : l ≠ []) :
    l.getLastD d ∈ l := by
  rw [List.getLastD_eq_getLast?, List.getLast?_eq_getLast l h]
  exact List.getLast_mem h

/-- C1: when all `n` lexemes are consumed (the chart has `n+1` columns),
no chart column is empty, and the final column holds no completed
start-symbol item with origin 0, `parse` returns `BadInput` — and, for
the arithmetic grammar over `"1+"` lexed with operators `"+*"`, that case
concretely obtains (column 1 even holds a completed start-symbol item for
the shorter `"1"` span), so the outcome is `BadInput`, not
`PartialParse`. -/
theorem claim_c1 :
    (∀ (g : Grammar) (toks : List String),
      (buildChart g toks).length = toks.length + 1 →
      (buildChart g toks).all (fun c => !c.isEmpty) = true →
      colHasFullStart g ((buildChart g toks).getLastD []) = false →
      parse g toks = .error .BadInput) ∧
    parse mathGrammar toksBad = .error .BadInput ∧
    colHasFullStart mathGrammar ((buildChart mathGrammar toksBad).getD 1 []) = true := by
  refine ⟨?_, by rfl, by rfl⟩
  intro g toks _h1 h2 h3
  have hcond : ((buildChart g toks).length == toks.length + 1 &&
      colHasFullStart g ((buildChart g toks).getLastD [])) = false := by
    rw [h3, Bool.and_false]
  have hany : (buildChart g toks).any List.isEmpty = false := by
    rw [List.any_eq_false]
    intro c hc
    have := List.all_eq_true.mp h2 c hc
    simpa using this
  simp only [parse, hcond, hany]
  simp

/-- C1 witness: the general classification rule applied to the concrete
`"1+"` chart. -/
theorem claim_c1_witness : parse mathGrammar toksBad = .error .BadInput :=
  claim_c1.1 mathGrammar toksBad (by rfl) (by rfl) (by rfl)

/-- C2: when a chart column came out empty (by construction the chart's
last), `parse` returns `PartialParse` exactly when the backward search
over the earlier columns finds one holding a completed start-symbol item
spanning from 0, and `BadInput` when none exists; the search result is
the largest such column.  Concretely, `Start -> "+" "+"` over `"+++"`
lexed with operator set `"+"` dies at column 3, the search finds column
2, and the outcome is `PartialParse`. -/
theorem claim_c2 :
    (∀ (g : Grammar) (toks : List String),
      (buildChart g toks).getLastD [] = [] →
      ((largestDoneCol g (buildChart g toks)).isSome = true →
          parse g toks = .error .PartialParse) ∧
      ((largestDoneCol g (buildChart g toks)).isSome = false →
          parse g toks = .error .BadInput) ∧
      ((largestDoneCol g (buildChart g toks)).isSome = true ↔
          ∃ j, j < (buildChart g toks).length - 1 ∧
            colHasFullStart g ((buildChart g toks).getD j []) = true)) ∧
    parse plusGrammar toksPlus = .error .PartialParse ∧
    largestDoneCol plusGrammar (buildChart plusGrammar toksPlus) = some 2 := by
  refine ⟨?_, by rfl, by rfl⟩
  intro g toks hlast
  have hcond : ((buildChart g toks).length == toks.length + 1 &&
      colHasFullStart g ((buildChart g toks).getLastD [])) = false := by
    rw [hlast]
    simp [colHasFullStart]
  refine ⟨?_, ?_, ?_⟩
  · intro hsome
    by_cases hnil : buildChart g toks = []
    · exfalso
      rw [hnil] at hsome
      simp [largestDoneCol] at hsome
    · have hmem : ([] : StateSet) ∈ buildChart g toks := by
        have := mem_getLastD_of_ne_nil (buildChart g toks) [] hnil
        rwa [hlast] at this
      have hany : (buildChart g toks).any List.isEmpty = true := by
        rw [List.any_eq_true]
        exact ⟨[], hmem, by simp⟩
      simp only [parse, hcond, hany, hsome]
      simp
  · intro hnone
    by_cases hany : (buildChart g toks).any List.isEmpty = true
    · simp only [parse, hcond, hany, hnone]
      simp
    · simp only [parse, hcond]
      simp only [Bool.not_eq_true] at hany
      simp [hany]
  · rw [largestDoneCol, List.find?_isSome]
    constructor
    · rintro ⟨j, hj, hp⟩
      rw [List.mem_reverse, List.mem_range] at hj
      exact ⟨j, hj, hp⟩
    · rintro ⟨j, hj, hp⟩
      exact ⟨j, by rw [List.mem_reverse, List.mem_range]; exact hj, hp⟩

/-- C2 witness: the general classification rule applied to the concrete
`"+++"` chart. -/
theorem claim_c2_witness : parse plusGrammar toksPlus = .error .PartialParse :=
  (claim_c2.1 plusGrammar toksPlus (by rfl)).1 (by rfl)

/- ------------------------------------------------------------------ -/
/- Symbol equality (claim C7).                                        -/
/- ------------------------------------------------------------------ -/

/-- C7: nonterminal symbols compare equal exactly when their names do;
terminal symbols compare equal only when they carry the same predicate
instance — two terminals with distinct predicate-identity tokens (i.e.
built at different construction sites, even from textually identical
predicates) compare unequal regardless of their names, and an equal
comparison forces identical predicate instances. -/
theorem claim_c7 :
    (∀ a b : String, (Symbol.nonterm a == Symbol.nonterm b) = (a == b)) ∧
    (∀ (n1 n2 : String) (i1 i2 : Nat) (p1 p2 : String → Bool),
      i1 ≠ i2 →
      (Symbol.terminal n1 i1 p1 == Symbol.terminal n2 i2 p2) = false) ∧
    (∀ (n1 n2 : String) (i1 i2 : Nat) (p1 p2 : String → Bool),
      (Symbol.terminal n1 i1 p1 == Symbol.terminal n2 i2 p2) = true →
      i1 = i2) := by
  refine ⟨fun a b => rfl, ?_, ?_⟩
  · intro n1 n2 i1 i2 p1 p2 hne
    show (n1 == n2 && i1 == i2) = false
    have : (i1 == i2) = false := by
      simp [hne]
    rw [this, Bool.and_false]
  · intro n1 n2 i1 i2 p1 p2 h
    have h' : (n1 == n2 && i1 == i2) = true := h
    have := (Bool.and_eq_true _ _).mp h'
    simpa using this.2

/-- C7 witness: two terminals with the same name and a textually
identical predicate but distinct predicate-identity tokens compare
unequal (the `symbol_uniqueness` scenario). -/
theorem claim_c7_witness :
    (Symbol.terminal "X" 0 (fun _ => true) == Symbol.terminal "X" 1 (fun _ => true)) = false :=
  claim_c7.2.1 "X" "X" 0 1 (fun _ => true) (fun _ => true) (by decide)

/- ------------------------------------------------------------------ -/
/- Lexer (claim C8).                                                  -/
/- ------------------------------------------------------------------ -/

/-- Flushing the pending run preserves the lexeme classification. -/
theorem flush_good (ops : List Char) (acc : List String) (cur : List Char)
    (hacc : ∀ lx ∈ acc, goodLexeme ops lx)
    (hcur : ∀ c ∈ cur, ops.contains c = false ∧ isWs c = false) :
    ∀ lx ∈ acc ++ (if cur.isEmpty then [] else [String.mk cur]), goodLexeme ops lx := by
  intro lx hlx
  rcases List.mem_append.mp hlx with h | h
  · exact hacc lx h
  · by_cases hcurnil : cur.isEmpty
    · rw [if_pos hcurnil] at h
      cases h
    · rw [if_neg hcurnil] at h
      have hlx' : lx = String.mk cur := by
        cases h with
        | head => rfl
        | tail _ h => cases h
      refine Or.inr ⟨?_, ?_⟩
      · rw [hlx']
        intro hcontra
        have : cur = [] := by
          have := congrArg String.data hcontra
          simpa using this
        rw [this] at hcurnil
        exact hcurnil rfl
      · intro c hc
        rw [hlx'] at hc
        exact hcur c hc

/-- Every lexeme the §4.3 fold emits is either a one-character operator
lexeme or a nonempty run avoiding both the operator set and the
whitespace subset. -/
theorem lexChars_classify (ops : List Char) :
    ∀ (cs cur acc : _),
      (∀ lx ∈ acc, goodLexeme ops lx) →
      (∀ c ∈ cur, ops.contains c = false ∧ isWs c = false) →
      ∀ lx ∈ lexChars ops cs cur acc, goodLexeme ops lx := by
  intro cs
  induction cs with
  | nil =>
    intro cur acc hacc hcur lx hlx
    rw [lexChars] at hlx
    exact flush_good ops acc cur hacc hcur lx hlx
  | cons c cs ih =>
    intro cur acc hacc hcur lx hlx
    rw [lexChars] at hlx
    by_cases hws : isWs c = true
    · rw [if_pos hws] at hlx
      exact ih [] _ (flush_good ops acc cur hacc hcur)
        (by intro x hx; cases hx) lx hlx
    · rw [if_neg hws] at hlx
      by_cases hop : ops.contains c = true
      · rw [if_pos hop] at hlx
        refine ih [] _ ?_ (by intro x hx; cases hx) lx hlx
        intro lx' hlx'
        rcases List.mem_append.mp hlx' with h | h
        · exact flush_good ops acc cur hacc hcur lx' h
        · have hlx'' : lx' = String.mk [c] := by
            cases h with
            | head => rfl
            | tail _ h => cases h
          exact Or.inl ⟨c, hlx'', hop, by simpa using hws⟩
      · rw [if_neg hop] at hlx
        refine ih (cur ++ [c]) acc hacc ?_ lx hlx
        intro c' hc'
        rcases List.mem_append.mp hc' with h | h
        · exact hcur c' h
        · have hc : c' = c := by
            cases h with
            | head => rfl
            | tail _ h => cases h

          rw [hc]
          exact ⟨by simpa using hop, by simpa using hws⟩

/-- C8: every lexeme `Lexer::from_str(text, operators)` emits is either a
one-character operator lexeme (operator characters are emitted on their
own) or a maximal run avoiding operators and whitespace, whitespace
itself emitting nothing; concretely, `"1+(2*3-4)"` with the operator set
of plus, star, minus, slash and parens yields exactly the nine expected
lexemes, and `"b b b"` with operator set `" "` yields the three lexemes
`"b"`, `"b"`, `"b"` (the spaces emit nothing). -/
theorem claim_c8 :
    (∀ (text operators : String), ∀ lx ∈ lexerFromStr text operators,
      goodLexeme operators.toList lx) ∧
    lexerFromStr "1+(2*3-4)" "+*-/()" = ["1", "+", "(", "2", "*", "3", "-", "4", ")"] ∧
    lexerFromStr "b b b" " " = ["b", "b", "b"] := by
  refine ⟨?_, by rfl, by rfl⟩
  intro text operators lx hlx
  exact lexChars_classify operators.toList text.toList [] []
    (by intro l h; cases h) (by intro c h; cases h) lx hlx

/-- C8 witness: the classification applied to the first lexeme of the
concrete math input. -/
theorem claim_c8_witness : goodLexeme "+*-/()".toList "1" :=
  claim_c8.1 "1+(2*3-4)" "+*-/()" "1" (by decide)

/- ------------------------------------------------------------------ -/
/- Nullability (claim C3).                                            -/
/- ------------------------------------------------------------------ -/

/-- `contains` on string lists agrees with membership. -/
theorem containsS_iff (s : List String) (x : String) :
    s.contains x = true ↔ x ∈ s :=
  List.elem_iff

/-- `nullFold` only ever appends to its accumulator. -/
theorem nullFold_extend (acc : List String) (r : Rule) :
    ∃ t, nullFold acc r = acc ++ t := by
  unfold nullFold
  split_ifs with h1 h2
  · exact ⟨[], by simp⟩
  · exact ⟨[r.head.name], rfl⟩
  · exact ⟨[], by simp⟩

/-- A fold of `nullFold` only ever appends to its accumulator. -/
theorem foldl_nullFold_extend (l : List Rule) :
    ∀ acc, ∃ t, l.foldl nullFold acc = acc ++ t := by
  induction l with
  | nil => intro acc; exact ⟨[], by simp⟩
  | cons r l ih =>
    intro acc
    obtain ⟨u, hu⟩ := nullFold_extend acc r
    obtain ⟨t, ht⟩ := ih (nullFold acc r)
    exact ⟨u ++ t, by rw [List.foldl_cons, ht, hu, List.append_assoc]⟩

/-- Members of the accumulator survive a fold of `nullFold`. -/
theorem mem_foldl_nullFold (l : List Rule) (acc : List String) (x : String)
    (hx : x ∈ acc) : x ∈ l.foldl nullFold acc := by
  obtain ⟨t, ht⟩ := foldl_nullFold_extend l acc
  rw [ht]
  exact List.mem_append_left t hx

/-- Soundness of one fold round: every name it marks nullable (beyond
already-sound ones) heads a rule whose body symbols are all nullable
nonterminals, hence derives the empty sequence. -/
theorem foldl_nullFold_sound (rules : List Rule) :
    ∀ (l : List Rule), (∀ r ∈ l, r ∈ rules) →
    ∀ acc, (∀ y ∈ acc, DerivesEmpty rules y) →
    ∀ x ∈ l.foldl nullFold acc, DerivesEmpty rules x := by
  intro l
  induction l with
  | nil => intro _ acc hacc x hx; exact hacc x hx
  | cons r l ih =>
    intro hl acc hacc x hx
    rw [List.foldl_cons] at hx
    refine ih (fun r' h => hl r' (List.mem_cons_of_mem _ h)) (nullFold acc r) ?_ x hx
    intro y hy
    unfold nullFold at hy
    split_ifs at hy with h1 h2
    · exact hacc y hy
    · rcases List.mem_append.mp hy with h | h
      · exact hacc y h
      · have hyr : y = r.head.name := by
          cases h with
          | head => rfl
          | tail _ h => cases h
        rw [hyr]
        refine DerivesEmpty.viaRule r r.head.name (hl r (List.mem_cons_self r l)) rfl ?_ ?_
        · intro s hs
          have := List.all_eq_true.mp h2 s hs
          cases s with
          | nonterm n => exact ⟨n, rfl⟩
          | terminal a b c => simp [symInSet] at this
        · intro s hs n hn
          have := List.all_eq_true.mp h2 s hs
          rw [hn] at this
          exact hacc n ((containsS_iff acc n).mp (by simpa [symInSet] using this))
    · exact hacc y hy

/-- Soundness of the iterated fixed point: everything `nullIter` marks
nullable derives the empty sequence. -/
theorem nullIter_sound (rules : List Rule) :
    ∀ (f : Nat) (s : List String), (∀ y ∈ s, DerivesEmpty rules y) →
    ∀ x ∈ nullIter rules f s, DerivesEmpty rules x := by
  intro f
  induction f with
  | zero =>
    intro s hs x hx
    rw [nullIter] at hx
    exact hs x hx
  | succ f ih =>
    intro s hs x hx
    rw [nullIter] at hx
    by_cases heq : ((nullStep rules s).length == s.length) = true
    · rw [if_pos heq] at hx
      exact hs x hx
    · rw [if_neg heq] at hx
      exact ih (nullStep rules s)
        (foldl_nullFold_sound rules rules (fun _ h => h) s hs) x hx

/-- `nullFold` preserves lack of duplicates. -/
theorem nullFold_nodup (acc : List String) (r : Rule) (h : acc.Nodup) :
    (nullFold acc r).Nodup := by
  unfold nullFold
  split_ifs with h1 h2
  · exact h
  · have hne : r.head.name ∉ acc := fun hmem => h1 ((containsS_iff _ _).mpr hmem)
    have : (r.head.name :: acc).Nodup := List.nodup_cons.mpr ⟨hne, h⟩
    exact ((List.perm_append_singleton _ _).nodup_iff).mpr this
  · exact h

/-- A fold of `nullFold` preserves lack of duplicates. -/
theorem foldl_nullFold_nodup (l : List Rule) :
    ∀ acc, acc.Nodup → (l.foldl nullFold acc).Nodup := by
  induction l with
  | nil => intro acc h; exact h
  | cons r l ih =>
    intro acc h
    rw [List.foldl_cons]
    exact ih (nullFold acc r) (nullFold_nodup acc r h)

/-- Everything a fold of `nullFold` marks nullable is either inherited or
one of the folded rules' head names. -/
theorem foldl_nullFold_subset (l : List Rule) :
    ∀ acc x, x ∈ l.foldl nullFold acc → x ∈ acc ∨ x ∈ headNames l := by
  induction l with
  | nil => intro acc x hx; exact Or.inl hx
  | cons r l ih =>
    intro acc x hx
    rw [List.foldl_cons] at hx
    rcases ih (nullFold acc r) x hx with h | h
    · unfold nullFold at h
      split_ifs at h with h1 h2
      · exact Or.inl h
      · rcases List.mem_append.mp h with h | h
        · exact Or.inl h
        · have hx' : x = r.head.name := by
            cases h with
            | head => rfl
            | tail _ h => cases h
          right
          rw [hx']
          exact List.mem_cons_self _ _
      · exact Or.inl h
    · right
      exact List.mem_cons_of_mem _ h

/-- With enough iteration budget, `nullIter` reaches a fixed point of
`nullStep`: the budget exceeds the number of head names a
duplicate-free accumulator can still absorb. -/
theorem nullIter_fix (rules : List Rule) :
    ∀ (f : Nat) (s : List String), s.Nodup → (∀ x ∈ s, x ∈ headNames rules) →
    rules.length + 1 ≤ f + s.length →
    nullStep rules (nullIter rules f s) = nullIter rules f s := by
  intro f
  induction f with
  | zero =>
    intro s hnd hsub hb
    exfalso
    have hle : s.length ≤ (headNames rules).length := (hnd.subperm hsub).length_le
    have hlen : (headNames rules).length = rules.length := List.length_map _ _
    omega
  | succ f ih =>
    intro s hnd hsub hb
    rw [nullIter]
    by_cases heq : ((nullStep rules s).length == s.length) = true
    · rw [if_pos heq]
      obtain ⟨t, ht⟩ := foldl_nullFold_extend rules s
      have hlen : (nullStep rules s).length = s.length := by simpa using heq
      have ht0 : t = [] := by
        rw [show nullStep rules s = s ++ t from ht] at hlen
        simpa using hlen
      rw [show nullStep rules s = s ++ t from ht, ht0, List.append_nil]
    · rw [if_neg heq]
      obtain ⟨t, ht⟩ := foldl_nullFold_extend rules s
      have htne : t ≠ [] := by
        intro h0
        apply heq
        rw [show nullStep rules s = s ++ t from ht, h0, List.append_nil]
        simp
      have hgrow : s.length + 1 ≤ (nullStep rules s).length := by
        rw [show nullStep rules s = s ++ t from ht, List.length_append]
        have : 1 ≤ t.length := List.length_pos.mpr htne
        omega
      refine ih (nullStep rules s) (foldl_nullFold_nodup rules s hnd) ?_ (by omega)
      intro x hx
      rcases foldl_nullFold_subset rules s x hx with h | h
      · exact hsub x h
      · exact h

/-- The computed nullability set is a fixed point of `nullStep`. -/
theorem nullableFix_fix (rules : List Rule) :
    nullStep rules (nullableFix rules) = nullableFix rules :=
  nullIter_fix rules (rules.length + 1) [] List.nodup_nil
    (by intro x h; cases h) (by simp)

/-- Completeness of one round at a fixed point: a rule whose body is all
nullable puts its head in the set. -/
theorem nullStep_head_mem (rules : List Rule) (s : List String) (r : Rule)
    (hr : r ∈ rules) (hb : r.body.all (symInSet s) = true) :
    r.head.name ∈ nullStep rules s := by
  obtain ⟨l1, l2, hsplit⟩ := List.append_of_mem hr
  obtain ⟨t, ht⟩ := foldl_nullFold_extend l1 s
  unfold nullStep
  rw [hsplit, List.foldl_append, List.foldl_cons]
  apply mem_foldl_nullFold
  set acc1 := l1.foldl nullFold s with hacc1
  unfold nullFold
  by_cases h1 : acc1.contains r.head.name = true
  · rw [if_pos h1]
    exact (containsS_iff _ _).mp h1
  · rw [if_neg h1]
    have hb' : r.body.all (symInSet acc1) = true := by
      rw [List.all_eq_true] at hb ⊢
      intro sym hs
      have hsym := hb sym hs
      cases sym with
      | nonterm n =>
        have hn : n ∈ s := (containsS_iff s n).mp (by simpa [symInSet] using hsym)
        have : n ∈ acc1 := by
          rw [ht]
          exact List.mem_append_left t hn
        simpa [symInSet] using (containsS_iff _ n).mpr this
      | terminal a b c => simp [symInSet] at hsym
    rw [if_pos hb']
    exact List.mem_append_right _ (by simp)

/-- Completeness of the fixed point: every name deriving the empty
sequence is in the computed nullability set. -/
theorem derives_mem_fix (rules : List Rule) (x : String)
    (h : DerivesEmpty rules x) : x ∈ nullableFix rules := by
  induction h with
  | viaRule r x hr hx hnt hbody ih =>
    have hall : r.body.all (symInSet (nullableFix rules)) = true := by
      rw [List.all_eq_true]
      intro sym hs
      obtain ⟨n, hn⟩ := hnt sym hs
      rw [hn]
      have hmem : n ∈ nullableFix rules := ih sym hs n hn
      simpa [symInSet] using (containsS_iff _ n).mpr hmem
    have hmem := nullStep_head_mem rules (nullableFix rules) r hr hall
    rw [nullableFix_fix] at hmem
    rw [← hx]
    exact hmem

/-- C3: for every grammar finished by `GrammarBuilder::into_grammar`,
`is_nullable(X)` holds exactly when `X` can derive the empty sequence of
terminals, directly or transitively; in particular both `A` and `B` of
the mutually epsilon-recursive grammar `A -> ε | B`, `B -> A` are
nullable. -/
theorem claim_c3 :
    (∀ (gb : GrammarBuilder) (start x : String),
      (gb.into_grammar start).is_nullable x = true ↔
        DerivesEmpty (gb.into_grammar start).rules x) ∧
    emptyGrammar.is_nullable "A" = true ∧
    emptyGrammar.is_nullable "B" = true := by
  refine ⟨?_, by rfl, by rfl⟩
  intro gb start x
  show (nullableFix gb.rules).contains x = true ↔ DerivesEmpty gb.rules x
  constructor
  · intro h
    exact nullIter_sound gb.rules (gb.rules.length + 1) []
      (by intro y hy; cases hy) x ((containsS_iff _ _).mp h)
  · intro h
    exact (containsS_iff _ _).mpr (derives_mem_fix gb.rules x h)

/-- C3 witness: the nullability equivalence instantiated at the
mutually-recursive epsilon grammar: `is_nullable("B")` yields a
derivation of the empty input for `B`. -/
theorem claim_c3_witness :
    DerivesEmpty (GrammarBuilder.mk
      [Symbol.nonterm "A", Symbol.nonterm "B"] [] |>.rule "A" [] |>.rule "A" ["B"]
        |>.rule "B" ["A"]).rules "B" :=
  (claim_c3.1 (GrammarBuilder.mk
      [Symbol.nonterm "A", Symbol.nonterm "B"] [] |>.rule "A" [] |>.rule "A" ["B"]
        |>.rule "B" ["A"]) "A" "B").mp (by rfl)

/- ------------------------------------------------------------------ -/
/- Tree enumeration and the single-tree builder (claims C4, C5, C6).  -/
/- ------------------------------------------------------------------ -/

/-- The head of a `flatMap` is the first inner list's head that exists. -/
theorem head?_flatMap {α β : Type} (l : List α) (f : α → List β) :
    (l.flatMap f).head? = l.findSome? (fun a => (f a).head?) := by
  induction l with
  | nil => rfl
  | cons a l ih =>
    rw [List.flatMap_cons, List.head?_append, List.findSome?_cons]
    cases h : (f a).head? with
    | none => simpa [h] using ih
    | some b => simp [h]

/-- A `flatMap` of `map`s over fixed lists has as head the image of both
heads, when they exist. -/
theorem head?_flatMap_map {α β γ : Type} (la : List α) (lb : List β) (g : α → β → γ) :
    (la.flatMap (fun a => lb.map (g a))).head? =
      la.head?.bind (fun a => (lb.head?).map (g a)) := by
  cases la with
  | nil => rfl
  | cons a la =>
    cases lb with
    | nil =>
      have hnil : ∀ (l : List α), (l.flatMap (fun _ => ([] : List γ))) = [] := by
        intro l
        induction l with
        | nil => rfl
        | cons x l ih => rw [List.flatMap_cons, List.nil_append, ih]
      simp [hnil]
    | cons b lb => simp [List.flatMap_cons, List.head?_append]

/-- The first tree the enumerating walk yields coincides with the
deterministic single-tree walk, at every fuel level. -/
theorem treesWalk_head (chart : List StateSet) (toks : List String) :
    ∀ f : Nat,
      (∀ (it : Item) (e : Nat),
        (treesOfItem chart toks f it e).head? = treeOfItem chart toks f it e) ∧
      (∀ (body : List Symbol) (o e : Nat),
        (walksRev chart toks f body o e).head? = walkRev chart toks f body o e) := by
  intro f
  induction f with
  | zero => exact ⟨fun _ _ => rfl, fun _ _ _ => rfl⟩
  | succ f ih =>
    constructor
    · intro it e
      rw [treesOfItem, treeOfItem, List.head?_map, ih.2]
    · intro body o e
      cases body with
      | nil =>
        by_cases h : (o == e) = true
        · simp [walksRev, walkRev, h]
        · simp [walksRev, walkRev, h]
      | cons s rest =>
        cases s with
        | terminal a b p =>
          cases e with
          | zero => simp [walksRev, walkRev]
          | succ e' => rw [walksRev, walkRev, List.head?_map, ih.2]
        | nonterm n =>
          rw [walksRev, walkRev, head?_flatMap]
          have hfun : ∀ c : Item,
              ((walksRev chart toks f rest o c.origin).flatMap (fun cs =>
                (treesOfItem chart toks f c e).map (fun t => t :: cs))).head? =
              (walkRev chart toks f rest o c.origin).bind (fun cs =>
                (treeOfItem chart toks f c e).map (fun t => t :: cs)) := by
            intro c
            rw [head?_flatMap_map, ih.2, (ih.1 c e)]
          rw [funext hfun]

/-- `leavesList` distributes over concatenation. -/
theorem leavesList_append (l1 l2 : List Tree) :
    leavesList (l1 ++ l2) = leavesList l1 ++ leavesList l2 := by
  induction l1 with
  | nil => rfl
  | cons t l1 ih => rw [List.cons_append, leavesList, leavesList, ih, List.append_assoc]

/-- The empty slice. -/
theorem sliceT_self (toks : List String) (o : Nat) : sliceT toks o o = [] := by
  simp [sliceT]

/-- Extending a slice by the lexeme consumed at the column transition
`e → e+1`. -/
theorem sliceT_snoc (toks : List String) (o e : Nat) (ho : o ≤ e)
    (he : e < toks.length) :
    sliceT toks o (e + 1) = sliceT toks o e ++ [toks.getD e ""] := by
  have h1 : e + 1 - o = (e - o) + 1 := by omega
  rw [sliceT, sliceT, h1, List.take_succ]
  congr 1
  have h2 : (toks.drop o).get? (e - o) = toks.get? e := by
    rw [List.get?_drop]
    congr 1
    omega
  have h3 : toks.get? e = some (toks.getD e "") := by
    cases hg : toks.get? e with
    | none =>
      rw [List.get?_eq_none] at hg
      omega
    | some v =>
      rw [show toks.getD e "" = (toks.get? e).getD "" from rfl, hg]
      rfl
  rw [← List.get?_eq_getElem?, h2, h3]
  rfl

/-- Adjacent slices concatenate. -/
theorem sliceT_append (toks : List String) (o m e : Nat) (h1 : o ≤ m) (h2 : m ≤ e) :
    sliceT toks o m ++ sliceT toks m e = sliceT toks o e := by
  have he : e - o = (m - o) + (e - m) := by omega
  rw [sliceT, sliceT, sliceT, he, List.take_add]
  congr 2
  rw [List.drop_drop]
  congr 1
  omega

/-- A successful deterministic walk accounts for exactly the lexemes of
its span: the leaves of the tree built for a span `o..e`, read left to
right, are the lexemes of columns `o` through `e-1`. -/
theorem walk_leaves (chart : List StateSet) (toks : List String) :
    ∀ f : Nat,
      (∀ (it : Item) (e : Nat) (t : Tree), e ≤ toks.length →
        treeOfItem chart toks f it e = some t →
        it.origin ≤ e ∧ leavesOf t = sliceT toks it.origin e) ∧
      (∀ (body : List Symbol) (o e : Nat) (cs : List Tree), e ≤ toks.length →
        walkRev chart toks f body o e = some cs →
        o ≤ e ∧ leavesList cs.reverse = sliceT toks o e) := by
  intro f
  induction f with
  | zero =>
    constructor
    · intro it e t _ h; cases h
    · intro body o e cs _ h; cases h
  | succ f ih =>
    constructor
    · intro it e t he h
      rw [treeOfItem] at h
      obtain ⟨cs, hw, ht⟩ := Option.map_eq_some'.mp h
      obtain ⟨ho, hl⟩ := ih.2 it.rule.body.reverse it.origin e cs he hw
      exact ⟨ho, by rw [← ht]; exact hl⟩
    · intro body o e cs he h
      cases body with
      | nil =>
        rw [walkRev] at h
        by_cases hoe : (o == e) = true
        · rw [if_pos hoe] at h
          cases h
          have : o = e := by simpa using hoe
          rw [this]
          exact ⟨Nat.le_refl e, by rw [sliceT_self]; rfl⟩
        · rw [if_neg hoe] at h
          cases h
      | cons s rest =>
        cases s with
        | terminal a b p =>
          cases e with
          | zero => rw [walkRev] at h; cases h
          | succ e2 =>
            rw [walkRev] at h
            obtain ⟨cs2, hw, hcs⟩ := Option.map_eq_some'.mp h
            obtain ⟨ho, hl⟩ := ih.2 rest o e2 cs2 (by omega) hw
            refine ⟨by omega, ?_⟩
            rw [← hcs]
            show leavesList ((Tree.leaf (toks.getD e2 "") :: cs2).reverse) = _
            rw [List.reverse_cons, leavesList_append, hl]
            have h2 : leavesList [Tree.leaf (toks.getD e2 "")] = [toks.getD e2 ""] := rfl
            rw [h2, ← sliceT_snoc toks o e2 ho (by omega)]
        | nonterm n =>
          rw [walkRev] at h
          obtain ⟨c, hc, hF⟩ := List.exists_of_findSome?_eq_some h
          obtain ⟨cs2, hw, h2⟩ := Option.bind_eq_some.mp hF
          obtain ⟨t, htree, hcs⟩ := Option.map_eq_some'.mp h2
          obtain ⟨hoe, hlt⟩ := ih.1 c e t he htree
          obtain ⟨ho2, hl2⟩ := ih.2 rest o c.origin cs2 (by omega) hw
          refine ⟨by omega, ?_⟩
          rw [← hcs]
          show leavesList ((t :: cs2).reverse) = _
          rw [List.reverse_cons, leavesList_append, hl2]
          have h3 : leavesList [t] = leavesOf t := by
            rw [leavesList, leavesList, List.append_nil]
          rw [h3, hlt, sliceT_append toks o c.origin e ho2 hoe]

/-- C6: for every successful parse, every tree `build_tree` returns has
leaf lexemes, read left to right, equal to the original token sequence;
the first tree `build_trees` enumerates is exactly the tree `build_tree`
reconstructs (so on every unambiguous grammar the two agree on the unique
derivation); and for the arithmetic grammar over `"1+(2*3-4)"` the parse
succeeds and `build_tree` returns the expected nine-leaf tree. -/
theorem claim_c6 :
    (∀ (g : Grammar) (toks : List String) (ps : ParseState) (t : Tree),
      parse g toks = .ok ps → build_tree g ps = some t → leavesOf t = toks) ∧
    (∀ (g : Grammar) (ps : ParseState),
      (build_trees g ps).head? = build_tree g ps) ∧
    parse mathGrammar toksMath = .ok psMath ∧
    (build_tree mathGrammar psMath).map leavesOf =
      some ["1", "+", "(", "2", "*", "3", "-", "4", ")"] := by
  refine ⟨?_, ?_, by rfl, by rfl⟩
  · intro g toks ps t hparse htree
    rw [parse] at hparse
    by_cases hcond : ((buildChart g toks).length == toks.length + 1 &&
        colHasFullStart g ((buildChart g toks).getLastD [])) = true
    · rw [if_pos hcond] at hparse
      have hps : ps = ⟨buildChart g toks, toks⟩ := by
        injection hparse with h1
        exact h1.symm
      have hlen : (buildChart g toks).length = toks.length + 1 := by
        have := (Bool.and_eq_true _ _).mp hcond
        simpa using this.1
      rw [build_tree] at htree
      obtain ⟨it, hit, hsome⟩ := List.exists_of_findSome?_eq_some htree
      have horigin : it.origin = 0 := by
        have := List.of_mem_filter hit
        have h2 := (Bool.and_eq_true _ _).mp this
        simpa using h2.2
      have he : ps.states.length - 1 = toks.length := by
        rw [hps]
        simp [hlen]
      have htl : ps.lexemes = toks := by rw [hps]
      rw [htl, he] at hsome
      have := (walk_leaves ps.states toks (treeFuel ps)).1 it toks.length t
        (Nat.le_refl _) hsome
      rw [this.2, horigin]
      simp [sliceT]
    · rw [if_neg hcond] at hparse
      by_cases hany : (buildChart g toks).any List.isEmpty = true
      · rw [if_pos hany] at hparse
        by_cases hsome : (largestDoneCol g (buildChart g toks)).isSome = true
        · rw [if_pos hsome] at hparse
          cases hparse
        · rw [if_neg hsome] at hparse
          cases hparse
      · rw [if_neg hany] at hparse
        cases hparse
  · intro g ps
    unfold build_trees build_tree
    rw [head?_flatMap]
    rw [funext (fun it => (treesWalk_head ps.states ps.lexemes (treeFuel ps)).1
      it (ps.states.length - 1))]

/-- C4: epsilon grammars parse correctly through the nullable-complete
step — the nullable-start grammar `A -> ε | B`, `B -> A` accepts the
empty input and its tree is the childless zero-width node `A`; and each
`chained_terminals` variant mixing the terminal `+` with the nullable
nonterminal `X` (in first, last and middle body positions) accepts its
terminal-only input, the epsilon-derived `X` contributing a childless
node. -/
theorem claim_c4 :
    (parse emptyGrammar [] = .ok psEmpty ∧
      build_tree emptyGrammar psEmpty = some (Tree.node "A" [])) ∧
    (parse (chainedGrammar ["X", "+"]) ["+"] = .ok (psChained ["X", "+"] ["+"]) ∧
      build_tree (chainedGrammar ["X", "+"]) (psChained ["X", "+"] ["+"]) =
        some (Tree.node "E" [Tree.node "X" [], Tree.leaf "+"])) ∧
    (parse (chainedGrammar ["+", "X"]) ["+"] = .ok (psChained ["+", "X"] ["+"]) ∧
      build_tree (chainedGrammar ["+", "X"]) (psChained ["+", "X"] ["+"]) =
        some (Tree.node "E" [Tree.leaf "+", Tree.node "X" []])) ∧
    (parse (chainedGrammar ["X", "+", "+"]) ["+", "+"] =
        .ok (psChained ["X", "+", "+"] ["+", "+"]) ∧
      build_tree (chainedGrammar ["X", "+", "+"]) (psChained ["X", "+", "+"] ["+", "+"]) =
        some (Tree.node "E" [Tree.node "X" [], Tree.leaf "+", Tree.leaf "+"])) ∧
    (parse (chainedGrammar ["+", "+", "X"]) ["+", "+"] =
        .ok (psChained ["+", "+", "X"] ["+", "+"]) ∧
      build_tree (chainedGrammar ["+", "+", "X"]) (psChained ["+", "+", "X"] ["+", "+"]) =
        some (Tree.node "E" [Tree.leaf "+", Tree.leaf "+", Tree.node "X" []])) ∧
    (parse (chainedGrammar ["+", "X", "+"]) ["+", "+"] =
        .ok (psChained ["+", "X", "+"] ["+", "+"]) ∧
      build_tree (chainedGrammar ["+", "X", "+"]) (psChained ["+", "X", "+"] ["+", "+"]) =
        some (Tree.node "E" [Tree.leaf "+", Tree.node "X" [], Tree.leaf "+"])) :=
  ⟨⟨by rfl, by rfl⟩, ⟨by rfl, by rfl⟩, ⟨by rfl, by rfl⟩, ⟨by rfl, by rfl⟩,
   ⟨by rfl, by rfl⟩, ⟨by rfl, by rfl⟩⟩

/-- C5 counterexample: over the three `b` lexemes the chart's *final
column* holds 8 states, not 4 (the test's `ps.states.len() == 4` counts
the chart's StateSets, i.e. its columns), and `build_trees` enumerates
exactly the two distinct derivations — no duplicate tree is emitted for
this input. -/
theorem claim_c5_counterexample :
    ((buildChart ambGrammar toksB).getLastD []).length = 8 ∧
    build_trees ambGrammar psAmb = [c5TreeLeft, c5TreeRight] ∧
    c5TreeLeft ≠ c5TreeRight := by
  refine ⟨by rfl, by rfl, ?_⟩
  intro h
  have h2 := congrArg firstChildArity h
  simp [c5TreeLeft, c5TreeRight, firstChildArity] at h2

/-- C5 (amended): for the grammar `S -> S S | b` over exactly three `b`
lexemes, parse succeeds, the resulting chart consists of exactly 4
StateSets (columns 0 through 3), and `build_trees` enumerates the
derivations — the two distinct association trees, with no duplicate
emitted for this input. -/
theorem claim_c5 :
    parse ambGrammar toksB = .ok psAmb ∧
    psAmb.states.length = 4 ∧
    build_trees ambGrammar psAmb = [c5TreeLeft, c5TreeRight] :=
  ⟨by rfl, by rfl, by rfl⟩

end Earley

namespace Shunting

/- ------------------------------------------------------------------ -/
/- RPN evaluator totality and error cases (claim C9).                 -/
/- ------------------------------------------------------------------ -/

/-- C9: `MathContext::eval` is total — every run returns `Ok` or `Err` —
and its guarded pops produce the documented errors: an empty expression,
a binary operator with fewer than two operands, a unary operator with an
empty stack, or a function with fewer operands than its recorded arity
all return `Err("Wrong number of arguments")`, and a variable absent from
the context returns the `"Unknown Variable"` error. -/
theorem claim_c9 :
    (∀ (ops : F64Ops) (cx : MathContext) (rpn : RPNExpr),
      (∃ v, eval ops cx rpn = .ok v) ∨ (∃ msg, eval ops cx rpn = .error msg)) ∧
    (∀ (ops : F64Ops) (cx : MathContext),
      eval ops cx ⟨[]⟩ = .error "Wrong number of arguments") ∧
    (∀ (ops : F64Ops) (cx : MathContext) (operands : List Float) (op : String),
      operands.length < 2 →
      evalStep ops cx operands (.BOp op) = .error "Wrong number of arguments") ∧
    (∀ (ops : F64Ops) (cx : MathContext) (op : String),
      evalStep ops cx [] (.UOp op) = .error "Wrong number of arguments") ∧
    (∀ (ops : F64Ops) (cx : MathContext) (operands : List Float)
        (fname : String) (arity : Nat),
      operands.length < arity →
      evalStep ops cx operands (.Function fname arity) =
        .error "Wrong number of arguments") ∧
    (∀ (ops : F64Ops) (cx : MathContext) (operands : List Float) (var : String),
      cx.vars.lookup var = none →
      evalStep ops cx operands (.Variable var) =
        .error ("Unknown Variable: " ++ var)) := by
  refine ⟨?_, fun ops cx => rfl, ?_, fun ops cx op => rfl, ?_, ?_⟩
  · intro ops cx rpn
    cases hev : eval ops cx rpn with
    | ok v => exact Or.inl ⟨v, rfl⟩
    | error msg => exact Or.inr ⟨msg, rfl⟩
  · intro ops cx operands op h
    match operands with
    | [] => rfl
    | [a] => rfl
    | a :: b :: rest => simp at h; omega
  · intro ops cx operands fname arity h
    have hgt : arity > operands.length := h
    simp only [evalStep, if_pos hgt]
  · intro ops cx operands var hvar
    simp only [evalStep, hvar]

/-- C9 witness: the guarded-pop errors at concrete inputs — an empty
operand stack under a binary operator, a function of arity 1 with no
operands, and an unbound variable. -/
theorem claim_c9_witness :
    evalStep opsTriv MathContext.new [] (.BOp "+") = .error "Wrong number of arguments" ∧
    evalStep opsTriv MathContext.new [] (.Function "sin" 1) =
      .error "Wrong number of arguments" ∧
    evalStep opsTriv MathContext.new [] (.Variable "zz") =
      .error ("Unknown Variable: " ++ "zz") :=
  ⟨claim_c9.2.2.1 opsTriv MathContext.new [] "+" (by decide),
   claim_c9.2.2.2.2.1 opsTriv MathContext.new [] "sin" 1 (by decide),
   claim_c9.2.2.2.2.2 opsTriv MathContext.new [] "zz" (by rfl)⟩

/- ------------------------------------------------------------------ -/
/- Shunting-yard parenthesis errors (claim C10).                      -/
/- ------------------------------------------------------------------ -/

/-- Derived token equality against `OParen` agrees with `isOParen`. -/
theorem beq_oparen (t : MathToken) : (t == MathToken.OParen) = isOParen t := by
  cases t <;> rfl

/-- The head of a nonempty `dropWhile` fails the predicate. -/
theorem dropWhile_head_false {α : Type} (p : α → Bool) :
    ∀ (l : List α) (d : α) (rest : List α),
      l.dropWhile p = d :: rest → p d = false := by
  intro l
  induction l with
  | nil => intro d rest h; cases h
  | cons a l ih =>
    intro d rest h
    rw [List.dropWhile_cons] at h
    by_cases hp : p a = true
    · rw [if_pos hp] at h
      exact ih d rest h
    · rw [if_neg hp] at h
      injection h with h1 h2
      rw [← h1]
      exact Bool.not_eq_true _ |>.mp hp

/-- The popped portion of the stack before the nearest `OParen` holds no
`OParen`. -/
theorem countO_takeWhile (stack : List MathToken) :
    countO (stack.takeWhile (fun t => !(t == MathToken.OParen))) = 0 := by
  rw [countO, List.countP_eq_zero]
  intro a ha
  have := List.mem_takeWhile_imp ha
  rw [beq_oparen] at this
  simp only [Bool.not_eq_true'] at this
  simp [this]

/-- Splitting the stack at the nearest `OParen` preserves its `OParen`
count, all of it in the `dropWhile` part. -/
theorem countO_split (stack : List MathToken) :
    countO stack = countO (stack.dropWhile (fun t => !(t == MathToken.OParen))) := by
  conv_lhs => rw [← List.takeWhile_append_dropWhile
    (fun t => !(t == MathToken.OParen)) stack]
  rw [countO, List.countP_append, ← countO, ← countO, countO_takeWhile]
  omega

/-- A `Comma` or `CParen` fed to the shunting step with no `OParen` on
the operator stack produces the missing-opening-paren error. -/
theorem shuntStep_noOParen (st : SYState) (t : MathToken)
    (ht : t = MathToken.Comma ∨ t = MathToken.CParen) (h : countO st.stack = 0) :
    shuntStep st t = .error "Missing Opening Paren" := by
  have hdrop : st.stack.dropWhile (fun t => !(t == MathToken.OParen)) = [] := by
    rw [List.dropWhile_eq_nil_iff]
    intro x hx
    have hx0 : isOParen x = false := by
      rw [countO, List.countP_eq_zero] at h
      have := h x hx
      simpa using this
    rw [beq_oparen, hx0]
    rfl
  rcases ht with rfl | rfl
  · simp only [shuntStep, hdrop]
  · simp only [shuntStep, hdrop]

/-- A stack still holding an `OParen` makes the final drain loop produce
the missing-closing-paren error. -/
theorem finishSY_oparen :
    ∀ (stack out : List MathToken), 0 < countO stack →
      finishSY stack out = .error "Missing Closing Paren" := by
  intro stack
  induction stack with
  | nil => intro out h; simp [countO] at h
  | cons t rest ih =>
    intro out h
    by_cases hio : isOParen t = true
    · simp only [finishSY, if_pos hio]
    · rw [finishSY, if_neg hio]
      apply ih
      rw [countO, List.countP_cons_of_neg _ _ hio] at h
      exact h

/-- A drained stack that came back `Ok` held no `OParen`. -/
theorem finishSY_ok_no_oparen :
    ∀ (stack out out2 : List MathToken),
      finishSY stack out = .ok out2 → countO stack = 0 := by
  intro stack
  induction stack with
  | nil => intro out out2 _; rfl
  | cons t rest ih =>
    intro out out2 h
    by_cases hio : isOParen t = true
    · rw [finishSY, if_pos hio] at h
      cases h
    · rw [finishSY, if_neg hio] at h
      rw [countO, List.countP_cons_of_neg _ _ hio]
      exact ih (out ++ [t]) out2 h

/-- Extracting through `Except.bind`. -/
theorem bindE_ok {α β : Type} (x : Except String α) (f : α → Except String β)
    (v : β) (h : (x >>= f) = .ok v) : ∃ w, x = .ok w ∧ f w = .ok v := by
  cases x with
  | ok w => exact ⟨w, rfl, h⟩
  | error e => exact Except.noConfusion h

/-- The operator-popping loop never pops an `OParen` when the incoming
operator's precedence is at least 2 (as every `UOp`/`BOp` precedence
is). -/
theorem popOps_countO :
    ∀ (stack out out2 stack2 : List MathToken) (pr : Nat) (ar : Assoc),
      2 ≤ pr → popOps pr ar stack out = .ok (out2, stack2) →
      countO stack2 = countO stack := by
  intro stack
  induction stack with
  | nil =>
    intro out out2 stack2 pr ar _ h
    simp only [popOps] at h
    injection h with h1
    injection h1 with h1 h2
    rw [← h2]
  | cons top rest ih =>
    intro out out2 stack2 pr ar hpr h
    have htop : (precedence top).1 > pr ∨ (precedence top).1 = pr →
        isOParen top = false := by
      intro hcase
      cases top <;> first
        | rfl
        | (exfalso
           have : (precedence MathToken.OParen).1 = 1 := rfl
           rcases hcase with hgt | heq <;> omega)
    simp only [popOps] at h
    by_cases hgt : (precedence top).1 > pr
    · rw [if_pos hgt] at h
      have hio := htop (Or.inl hgt)
      rw [ih (out ++ [top]) out2 stack2 pr ar hpr h, countO, countO,
        List.countP_cons_of_neg _ _ (by simp [hio])]
    · rw [if_neg hgt] at h
      by_cases hlt : (precedence top).1 < pr
      · rw [if_pos hlt] at h
        injection h with h1
        injection h1 with h1 h2
        rw [← h2]
      · rw [if_neg hlt] at h
        have heq : (precedence top).1 = pr := by omega
        have hio := htop (Or.inr heq)
        cases har : ar with
        | Left =>
          rw [har] at h
          rw [ih (out ++ [top]) out2 stack2 pr ar hpr (by rw [har]; exact h),
            countO, countO, List.countP_cons_of_neg _ _ (by simp [hio])]
        | None => rw [har] at h; cases h
        | Right =>
          rw [har] at h
          injection h with h1
          injection h1 with h1 h2
          rw [← h2]

/-- Every `UOp` precedence is at least 2. -/
theorem two_le_prec_uop (o : String) : 2 ≤ (precedence (MathToken.UOp o)).1 := by
  simp only [precedence]
  split_ifs <;> simp

/-- Every `BOp` precedence is at least 2. -/
theorem two_le_prec_bop (o : String) : 2 ≤ (precedence (MathToken.BOp o)).1 := by
  simp only [precedence]
  split_ifs <;> simp

end Shunting

namespace Shunting

/-- A token whose derived equality with `OParen` holds is `OParen`. -/
theorem eq_oparen_of_beq (d : MathToken) (h : (d == MathToken.OParen) = true) :
    d = MathToken.OParen := by
  cases d <;> first | rfl | cases h

/-- How one successful shunting step changes the number of `OParen`s on
the operator stack: `OParen` adds one, `CParen` removes exactly one, and
every other token leaves the count unchanged. -/
theorem shuntStep_countO (st st' : SYState) (t : MathToken)
    (h : shuntStep st t = .ok st') :
    (t = MathToken.OParen → countO st'.stack = countO st.stack + 1) ∧
    (t = MathToken.CParen → countO st.stack = countO st'.stack + 1) ∧
    (t ≠ MathToken.OParen → t ≠ MathToken.CParen →
      countO st'.stack = countO st.stack) := by
  cases t with
  | Number n =>
    simp only [shuntStep] at h
    cases h
    exact ⟨(by intro hc; cases hc), (by intro hc; cases hc), fun _ _ => rfl⟩
  | Variable v =>
    simp only [shuntStep] at h
    cases h
    exact ⟨(by intro hc; cases hc), (by intro hc; cases hc), fun _ _ => rfl⟩
  | OParen =>
    simp only [shuntStep] at h
    cases h
    refine ⟨fun _ => ?_, (by intro hc; cases hc), fun h1 _ => absurd rfl h1⟩
    show countO (MathToken.OParen :: st.stack) = countO st.stack + 1
    rw [countO, countO, List.countP_cons_of_pos _ _ (by rfl)]
  | Function f a =>
    simp only [shuntStep] at h
    cases h
    refine ⟨(by intro hc; cases hc), (by intro hc; cases hc), fun _ _ => ?_⟩
    show countO (MathToken.Function f a :: st.stack) = countO st.stack
    rw [countO, countO, List.countP_cons_of_neg _ _ (by simp [isOParen])]
  | Comma =>
    simp only [shuntStep] at h
    cases hdrop : st.stack.dropWhile (fun x => !(x == MathToken.OParen)) with
    | nil => rw [hdrop] at h; cases h
    | cons d rest0 =>
      rw [hdrop] at h
      cases h
      refine ⟨(by intro hc; cases hc), (by intro hc; cases hc), fun _ _ => ?_⟩
      show countO (d :: rest0) = countO st.stack
      rw [countO_split st.stack, hdrop]
  | CParen =>
    simp only [shuntStep] at h
    cases hdrop : st.stack.dropWhile (fun x => !(x == MathToken.OParen)) with
    | nil => rw [hdrop] at h; cases h
    | cons d afterParen =>
      rw [hdrop] at h
      have hd : d = MathToken.OParen := by
        apply eq_oparen_of_beq
        have := dropWhile_head_false _ st.stack d afterParen hdrop
        simpa using this
      subst hd
      have hsplit : countO st.stack = countO afterParen + 1 := by
        rw [countO_split st.stack, hdrop, countO, countO,
          List.countP_cons_of_pos _ _ (by rfl)]
      refine ⟨(by intro hc; cases hc), fun _ => ?_, fun _ h2 => absurd rfl h2⟩
      cases afterParen with
      | nil =>
        cases h
        simpa using hsplit
      | cons a rest2 =>
        cases a with
        | Function f ar =>
          cases harity : st.arity with
          | nil => rw [harity] at h; cases h
          | cons q qs =>
            rw [harity] at h
            cases h
            show countO st.stack = countO rest2 + 1
            rw [hsplit, countO, countO, List.countP_cons_of_neg _ _ (by simp [isOParen])]
        | Number n => cases h; exact hsplit
        | Variable v => cases h; exact hsplit
        | BOp o => cases h; exact hsplit
        | UOp o => cases h; exact hsplit
        | OParen => cases h; exact hsplit
        | CParen => cases h; exact hsplit
        | Comma => cases h; exact hsplit
        | Unknown lx => cases h; exact hsplit
  | UOp o =>
    simp only [shuntStep] at h
    cases hp : popOps (precedence (MathToken.UOp o)).1
        (precedence (MathToken.UOp o)).2 st.stack st.out with
    | error e => rw [hp] at h; cases h
    | ok pr2 =>
      obtain ⟨out2, stack2⟩ := pr2
      rw [hp] at h
      cases h
      refine ⟨(by intro hc; cases hc), (by intro hc; cases hc), fun _ _ => ?_⟩
      show countO (MathToken.UOp o :: stack2) = countO st.stack
      rw [countO, List.countP_cons_of_neg _ _ (by simp [isOParen])]
      exact popOps_countO st.stack st.out out2 stack2 _ _ (two_le_prec_uop o) hp
  | BOp o =>
    simp only [shuntStep] at h
    cases hp : popOps (precedence (MathToken.BOp o)).1
        (precedence (MathToken.BOp o)).2 st.stack st.out with
    | error e => rw [hp] at h; cases h
    | ok pr2 =>
      obtain ⟨out2, stack2⟩ := pr2
      rw [hp] at h
      cases h
      refine ⟨(by intro hc; cases hc), (by intro hc; cases hc), fun _ _ => ?_⟩
      show countO (MathToken.BOp o :: stack2) = countO st.stack
      rw [countO, List.countP_cons_of_neg _ _ (by simp [isOParen])]
      exact popOps_countO st.stack st.out out2 stack2 _ _ (two_le_prec_bop o) hp
  | Unknown lx =>
    simp only [shuntStep] at h
    cases h

/-- A successful shunting fold ending with no `OParen` on the stack means
the parenthesis depth runs nonnegative and returns to the starting
level. -/
theorem foldlM_parenAux :
    ∀ (ts : List MathToken) (st st' : SYState),
      List.foldlM shuntStep st ts = .ok st' → countO st'.stack = 0 →
      parenAux (countO st.stack) ts = true := by
  intro ts
  induction ts with
  | nil =>
    intro st st' h h0
    rw [List.foldlM_nil] at h
    cases h
    simp [parenAux, h0]
  | cons t ts ih =>
    intro st st' h h0
    rw [List.foldlM_cons] at h
    obtain ⟨s1, hstep, hrest⟩ := bindE_ok _ _ _ h
    have hc := shuntStep_countO st s1 t hstep
    cases t with
    | OParen =>
      simp only [parenAux]
      rw [← hc.1 rfl]
      exact ih s1 st' hrest h0
    | CParen =>
      have h2 := hc.2.1 rfl
      simp only [parenAux]
      rw [h2]
      simp only [Nat.add_sub_cancel]
      simp [ih s1 st' hrest h0]
    | Number n =>
      have h3 := hc.2.2 (by intro hh; cases hh) (by intro hh; cases hh)
      simp only [parenAux]
      rw [← h3]
      exact ih s1 st' hrest h0
    | Variable v =>
      have h3 := hc.2.2 (by intro hh; cases hh) (by intro hh; cases hh)
      simp only [parenAux]
      rw [← h3]
      exact ih s1 st' hrest h0
    | BOp o =>
      have h3 := hc.2.2 (by intro hh; cases hh) (by intro hh; cases hh)
      simp only [parenAux]
      rw [← h3]
      exact ih s1 st' hrest h0
    | UOp o =>
      have h3 := hc.2.2 (by intro hh; cases hh) (by intro hh; cases hh)
      simp only [parenAux]
      rw [← h3]
      exact ih s1 st' hrest h0
    | Function f a =>
      have h3 := hc.2.2 (by intro hh; cases hh) (by intro hh; cases hh)
      simp only [parenAux]
      rw [← h3]
      exact ih s1 st' hrest h0
    | Comma =>
      have h3 := hc.2.2 (by intro hh; cases hh) (by intro hh; cases hh)
      simp only [parenAux]
      rw [← h3]
      exact ih s1 st' hrest h0
    | Unknown lx =>
      have h3 := hc.2.2 (by intro hh; cases hh) (by intro hh; cases hh)
      simp only [parenAux]
      rw [← h3]
      exact ih s1 st' hrest h0

/-- C10: `ShuntingParser::parse` returns `Err("Missing Opening Paren")`
when a comma or closing parenthesis is read while no unmatched opening
parenthesis remains on the operator stack; it returns
`Err("Missing Closing Paren")` when the input ends with an unmatched
opening parenthesis still on the stack; and it returns `Ok` only when
every parenthesis of the token stream is matched. -/
theorem claim_c10 :
    (∀ (ts1 ts2 : List MathToken) (t : MathToken) (st : SYState),
      (t = MathToken.Comma ∨ t = MathToken.CParen) →
      List.foldlM shuntStep ⟨[], [], []⟩ ts1 = Except.ok st →
      countO st.stack = 0 →
      parseSY (ts1 ++ t :: ts2) = .error "Missing Opening Paren") ∧
    (∀ (ts : List MathToken) (st : SYState),
      List.foldlM shuntStep ⟨[], [], []⟩ ts = Except.ok st →
      0 < countO st.stack →
      parseSY ts = .error "Missing Closing Paren") ∧
    (∀ (ts : List MathToken) (e : RPNExpr),
      parseSY ts = .ok e → parenBalanced ts = true) := by
  refine ⟨?_, ?_, ?_⟩
  · intro ts1 ts2 t st ht hfold h0
    have herr := shuntStep_noOParen st t ht h0
    rw [parseSY, List.foldlM_append, hfold]
    show (List.foldlM shuntStep st (t :: ts2) >>= fun st2 =>
        finishSY st2.stack st2.out >>= fun out => pure (RPNExpr.mk out)) =
      Except.error "Missing Opening Paren"
    rw [List.foldlM_cons, herr]
    rfl
  · intro ts st hfold hpos
    rw [parseSY, hfold]
    show (finishSY st.stack st.out >>= fun out => pure (RPNExpr.mk out)) =
      Except.error "Missing Closing Paren"
    rw [finishSY_oparen st.stack st.out hpos]
    rfl
  · intro ts e h
    rw [parseSY] at h
    obtain ⟨st, hfold, h2⟩ := bindE_ok _ _ _ h
    obtain ⟨out2, hfin, _⟩ := bindE_ok _ _ _ h2
    have h0 := finishSY_ok_no_oparen st.stack st.out out2 hfin
    have hb := foldlM_parenAux ts ⟨[], [], []⟩ st hfold h0
    simpa [parenBalanced, countO] using hb

/-- C10 witness: the three behaviors at concrete token streams — a bare
closing paren, a bare opening paren, and a fully matched stream. -/
theorem claim_c10_witness :
    parseSY [MathToken.CParen] = .error "Missing Opening Paren" ∧
    parseSY [MathToken.OParen] = .error "Missing Closing Paren" ∧
    parenBalanced [MathToken.OParen, MathToken.Variable "x", MathToken.CParen] = true :=
  ⟨claim_c10.1 [] [] MathToken.CParen ⟨[], [], []⟩ (Or.inr rfl) (by rfl) (by rfl),
   claim_c10.2.1 [MathToken.OParen] ⟨[], [MathToken.OParen], []⟩ (by rfl) (by decide),
   claim_c10.2.2 [MathToken.OParen, MathToken.Variable "x", MathToken.CParen]
     ⟨[MathToken.Variable "x"]⟩ (by rfl)⟩

end Shunting
